import Mathlib

/-!
# Verification of the Crawl4AI structured-extraction service

Shallow embedding of `src/server/crawl4ai_service/main.py` (the chunked
structured-extraction pipeline): `chunk_text`, `extract_json_candidates`,
`safe_parse_rows`, `dedupe_rows`, the per-URL chunk loop of the `/extract`
endpoint, and the endpoint's guard logic.

Text is modelled as `List Char`; Python `int` as `Int`/`Nat`; JSON values as
the inductive `JVal`; the external collaborators (HTTP fetch, BeautifulSoup
cleaning, the OpenAI call) are abstract function parameters, as in the spec's
component model.  `json.loads` is modelled by the executable recursive-descent
parser `json_loads` below (covering the integer fragment of JSON numbers,
which is all the service's claims exercise).
-/

namespace Crawl4AI

/-! ## TextChunker: `chunk_text` (main.py lines 77-90) -/

/-- Python slice `text[a:b]`. -/
def slice {α : Type} (text : List α) (a b : Nat) : List α :=
  (text.drop a).take (b - a)

/-- The `while start < n` loop of `chunk_text`: at each iteration the chunk
`text[start : min n (start+window)]` is emitted; the loop breaks when the
chunk end reaches `n`, else `start` advances by `step`.  The recursion is
driven by a fuel counter so that the definition reduces in the kernel; when
`0 < step`, fuel `text.length - start` is enough for the loop to run to its
`break`/exit condition (`chunkLoop_fuel_irrelevant` below), so `chunk_text`
passing `text.length` computes the Python loop exactly. -/
def chunkLoop {α : Type} (text : List α) (window step : Nat) :
    Nat → Nat → List (List α)
  | 0, _ => []
  | fuel + 1, start =>
    if start < text.length then
      let e := min text.length (start + window)
      let c := slice text start e
      if text.length ≤ e then [c]
      else c :: chunkLoop text window step fuel (start + step)
    else []

/-- `chunk_text(text, window, overlap)`: returns `[text]` when `window ≤ 0`,
otherwise runs the chunking loop with `step = max(1, window - overlap)`
from position 0. -/
def chunk_text {α : Type} (text : List α) (window overlap : Int) : List (List α) :=
  if window ≤ 0 then [text]
  else chunkLoop text window.toNat (max 1 (window - overlap)).toNat text.length 0

/-- Any fuel at least `text.length - start` computes the full chunking loop:
the result no longer depends on the exact fuel value (the loop terminates
by its own exit conditions first). -/
theorem chunkLoop_fuel_irrelevant {α : Type} (text : List α) (window step : Nat)
    (hstep : 0 < step) :
    ∀ fuel fuel' start, text.length - start ≤ fuel → text.length - start ≤ fuel' →
      chunkLoop text window step fuel start = chunkLoop text window step fuel' start := by
  intro fuel
  induction fuel with
  | zero =>
    intro fuel' start h _
    cases fuel' with
    | zero => rfl
    | succ f =>
      have hns : ¬ start < text.length := by omega
      simp [chunkLoop, hns]
  | succ f ih =>
    intro fuel' start h h'
    cases fuel' with
    | zero =>
      have hns : ¬ start < text.length := by omega
      simp [chunkLoop, hns]
    | succ f' =>
      by_cases hs : start < text.length
      · by_cases he : text.length ≤ min text.length (start + window)
        · simp [chunkLoop, hs, he]
        · simp only [chunkLoop, if_pos hs, if_neg he]
          have := ih f' (start + step) (by omega) (by omega)
          rw [this]
      · simp [chunkLoop, hs]

/-- Unfolding: the loop emits nothing when the scan position is past the end. -/
theorem chunkLoop_past_end {α : Type} {text : List α} {window step start : Nat}
    (hs : ¬ start < text.length) (fuel : Nat) :
    chunkLoop text window step fuel start = [] := by
  cases fuel with
  | zero => rfl
  | succ f => simp [chunkLoop, hs]

/-- Unfolding: when the current window reaches the end of the text, the loop
emits this final chunk and halts. -/
theorem chunkLoop_last_step {α : Type} {text : List α} {window step start f : Nat}
    (hs : start < text.length) (he : text.length ≤ start + window) :
    chunkLoop text window step (f + 1) start =
      [slice text start (min text.length (start + window))] := by
  have he' : text.length ≤ min text.length (start + window) := by omega
  simp [chunkLoop, hs, he']

/-- Unfolding: when the current window stops short of the end of the text, the
loop emits the chunk and continues from `start + step`. -/
theorem chunkLoop_cons_step {α : Type} {text : List α} {window step start f : Nat}
    (hs : start < text.length) (he : start + window < text.length) :
    chunkLoop text window step (f + 1) start =
      slice text start (min text.length (start + window)) ::
        chunkLoop text window step f (start + step) := by
  have he' : ¬ text.length ≤ min text.length (start + window) := by omega
  simp [chunkLoop, hs, he']

/-- The loop emits at least one chunk when the scan position is inside the
text (given any fuel at all). -/
theorem chunkLoop_ne_nil {α : Type} {text : List α} {window step fuel start : Nat}
    (hfuel : 0 < fuel) (hstart : start < text.length) :
    chunkLoop text window step fuel start ≠ [] := by
  cases fuel with
  | zero => omega
  | succ f =>
    by_cases he : text.length ≤ start + window
    · rw [chunkLoop_last_step hstart he]; simp
    · rw [chunkLoop_cons_step hstart (by omega)]; simp

/-- Closed form of the emitted chunks: the chunk at index `i` is the slice of
the text starting at `start + i * step` with window `window` (clamped to the
end of the text). -/
theorem chunkLoop_get {α : Type} (text : List α) (window step : Nat)
    (hstep : 0 < step) :
    ∀ fuel start, text.length - start ≤ fuel →
      ∀ i, i < (chunkLoop text window step fuel start).length →
        (chunkLoop text window step fuel start)[i]? =
          some (slice text (start + i * step)
            (min text.length (start + i * step + window))) := by
  intro fuel
  induction fuel with
  | zero =>
    intro start _ i hi
    simp [chunkLoop] at hi
  | succ f ih =>
    intro start hf i hi
    by_cases hs : start < text.length
    · by_cases he : text.length ≤ start + window
      · rw [chunkLoop_last_step hs he] at hi ⊢
        have hi0 : i = 0 := by simpa using Nat.lt_one_iff.mp (by simpa using hi)
        subst hi0
        simp
      · rw [chunkLoop_cons_step hs (by omega)] at hi ⊢
        cases i with
        | zero => simp
        | succ j =>
          have hj : j < (chunkLoop text window step f (start + step)).length := by
            simpa using hi
          have hrec := ih (start + step) (by omega) j hj
          have harith : start + step + j * step = start + (j + 1) * step := by ring
          rw [harith] at hrec
          rw [List.getElem?_cons_succ, hrec]
    · rw [chunkLoop_past_end hs] at hi
      simp at hi

/-- The last emitted chunk extends exactly to the end of the text: it equals
`text.drop` of its own start position (needs `step ≤ window`, which holds
whenever the overlap is nonnegative). -/
theorem chunkLoop_getLast {α : Type} (text : List α) (window step : Nat)
    (hstep : 0 < step) (hsw : step ≤ window) :
    ∀ fuel start, text.length - start ≤ fuel → start < text.length →
      (chunkLoop text window step fuel start).getLast? =
        some (text.drop
          (start + ((chunkLoop text window step fuel start).length - 1) * step)) := by
  intro fuel
  induction fuel with
  | zero => intro start hf hs; omega
  | succ f ih =>
    intro start hf hs
    by_cases he : text.length ≤ start + window
    · rw [chunkLoop_last_step hs he]
      have hmin : min text.length (start + window) = text.length := by omega
      simp only [List.getLast?_singleton, List.length_singleton, hmin, slice,
        Nat.sub_self, Nat.zero_mul, Nat.add_zero, Option.some.injEq]
      exact List.take_of_length_le (by simp)
    · have hwin : start + window < text.length := by omega
      have hnext : start + step < text.length := by omega
      have hne : chunkLoop text window step f (start + step) ≠ [] :=
        chunkLoop_ne_nil (by omega) hnext
      rw [chunkLoop_cons_step hs hwin]
      obtain ⟨r, rs, hr⟩ : ∃ r rs, chunkLoop text window step f (start + step) = r :: rs :=
        List.exists_cons_of_ne_nil hne
      have hcons : (slice text start (min text.length (start + window)) ::
          chunkLoop text window step f (start + step)).getLast? =
          (chunkLoop text window step f (start + step)).getLast? := by
        rw [hr]
        exact List.getLast?_cons_cons ..
      rw [hcons, ih (start + step) (by omega) hnext]
      have hlen : 0 < (chunkLoop text window step f (start + step)).length :=
        List.length_pos.mpr hne
      congr 2
      simp only [List.length_cons]
      obtain ⟨k, hk⟩ : ∃ k, (chunkLoop text window step f (start + step)).length = k + 1 :=
        ⟨_, (Nat.succ_pred_eq_of_pos hlen).symm⟩
      rw [hk]
      simp only [Nat.add_sub_cancel]
      ring

/-- Concatenation of the non-overlapping portions of the chunks: the first
`step` characters of every chunk but the last, and the whole last chunk
(this definition follows the coverage property stated in the spec). -/
def joinNonOverlap {α : Type} (step : Nat) : List (List α) → List α
  | [] => []
  | [c] => c
  | c :: cs => c.take step ++ joinNonOverlap step cs

theorem joinNonOverlap_cons {α : Type} (step : Nat) (c : List α) {cs : List (List α)}
    (h : cs ≠ []) :
    joinNonOverlap step (c :: cs) = c.take step ++ joinNonOverlap step cs := by
  cases cs with
  | nil => exact absurd rfl h
  | cons c' cs' => rfl

/-- Coverage: concatenating the non-overlapping portions of the chunks
produced from position `start` reconstructs `text.drop start`. -/
theorem chunkLoop_join {α : Type} (text : List α) (window step : Nat)
    (hstep : 0 < step) (hsw : step ≤ window) :
    ∀ fuel start, text.length - start ≤ fuel →
      joinNonOverlap step (chunkLoop text window step fuel start) = text.drop start := by
  intro fuel
  induction fuel with
  | zero =>
    intro start hf
    have hle : text.length ≤ start := by omega
    simp [chunkLoop, joinNonOverlap, List.drop_eq_nil_of_le hle]
  | succ f ih =>
    intro start hf
    by_cases hs : start < text.length
    · by_cases he : text.length ≤ start + window
      · have hmin : min text.length (start + window) = text.length := by omega
        rw [chunkLoop_last_step hs he]
        simp only [joinNonOverlap, hmin, slice]
        exact List.take_of_length_le (by simp)
      · have hwin : start + window < text.length := by omega
        have hnext : start + step < text.length := by omega
        have hne : chunkLoop text window step f (start + step) ≠ [] :=
          chunkLoop_ne_nil (by omega) hnext
        rw [chunkLoop_cons_step hs hwin]
        rw [joinNonOverlap_cons _ _ hne, ih (start + step) (by omega)]
        have hmin : min text.length (start + window) = start + window := by omega
        simp only [slice, hmin, Nat.add_sub_cancel_left]
        rw [List.take_take, min_eq_left hsw]
        have hdrop : text.drop (start + step) = (text.drop start).drop step := by
          rw [List.drop_drop, Nat.add_comm]
        rw [hdrop, List.take_append_drop]
    · have hle : text.length ≤ start := by omega
      rw [chunkLoop_past_end hs]
      simp [joinNonOverlap, List.drop_eq_nil_of_le hle]

/-- The loop emits at most one chunk per remaining character, so the chunk
sequence is finite with length at most `text.length - start`. -/
theorem chunkLoop_length_le {α : Type} (text : List α) (window step : Nat)
    (hstep : 0 < step) :
    ∀ fuel start, text.length - start ≤ fuel →
      (chunkLoop text window step fuel start).length ≤ text.length - start := by
  intro fuel
  induction fuel with
  | zero => intro start _; simp [chunkLoop]
  | succ f ih =>
    intro start hf
    by_cases hs : start < text.length
    · by_cases he : text.length ≤ start + window
      · rw [chunkLoop_last_step hs he]
        simp only [List.length_singleton]
        omega
      · rw [chunkLoop_cons_step hs (by omega)]
        simp only [List.length_cons]
        have := ih (start + step) (by omega)
        omega
    · rw [chunkLoop_past_end hs]
      simp

/-! ## TargetAllocator (main.py line 216) -/

/-- `math.ceil(a / b)` on positive integers (the request bounds
`target_rows ≤ 2000`, well inside the range where Python's float division
followed by `ceil` agrees with exact rational ceiling division). -/
def ceilDivNat (a b : Nat) : Nat := (a + b - 1) / b

/-- `per_url_target = max(1, math.ceil(req.target_rows / max(1, len(req.urls))))`. -/
def per_url_target (target_rows num_urls : Nat) : Nat :=
  max 1 (ceilDivNat target_rows (max 1 num_urls))

theorem ceilDivNat_eq_ceil (a b : Nat) (ha : 1 ≤ a) (hb : 1 ≤ b) :
    ceilDivNat a b = ⌈(a : ℚ) / (b : ℚ)⌉₊ := by
  have hbq : (0 : ℚ) < (b : ℚ) := by exact_mod_cast hb
  obtain ⟨q, r, hqr, hr, hq⟩ :
      ∃ q r, b * q + r = a + b - 1 ∧ r < b ∧ (a + b - 1) / b = q :=
    ⟨_, _, Nat.div_add_mod _ _, Nat.mod_lt _ (by omega), rfl⟩
  have hmq : ceilDivNat a b = q := hq
  have hq1 : 1 ≤ q := by
    rcases Nat.eq_zero_or_pos q with h0 | h1
    · subst h0; simp at hqr; omega
    · exact h1
  obtain ⟨k, rfl⟩ : ∃ k, q = k + 1 := ⟨q - 1, by omega⟩
  rw [Nat.mul_succ] at hqr
  have hub : a ≤ (k + 1) * b := by rw [Nat.add_mul, Nat.one_mul, Nat.mul_comm]; omega
  have hlb : (k + 1 - 1) * b < a := by
    simp only [Nat.add_sub_cancel]
    rw [Nat.mul_comm]
    omega
  rw [hmq]
  symm
  rw [Nat.ceil_eq_iff (by omega)]
  constructor
  · rw [lt_div_iff₀ hbq]
    exact_mod_cast hlb
  · rw [div_le_iff₀ hbq]
    exact_mod_cast hub

/-! ## Claim theorems about chunking and target allocation -/

/-- C1: for every text `T` of length `n`, window `w > 0` and overlap `o ≥ 0`,
`chunk_text` produces chunks starting at positions `0, s, 2s, …` with
`s = max 1 (w - o)`: the `i`-th chunk equals `T[i*s : min n (i*s + w)]`, the
last emitted chunk ends exactly at `n` (it equals `T.drop` of its own start),
and concatenating the non-overlapping portion of each chunk (its first `s`
characters; the whole remainder for the last chunk) reconstructs `T`. -/
theorem chunk_text_spec {α : Type} (text : List α) (w o : Int)
    (hw : 0 < w) (ho : 0 ≤ o) :
    (∀ i, i < (chunk_text text w o).length →
        (chunk_text text w o)[i]? =
          some (slice text (i * (max 1 (w - o)).toNat)
            (min text.length (i * (max 1 (w - o)).toNat + w.toNat))))
    ∧ (text ≠ [] →
        (chunk_text text w o).getLast? =
          some (text.drop
            (((chunk_text text w o).length - 1) * (max 1 (w - o)).toNat)))
    ∧ joinNonOverlap (max 1 (w - o)).toNat (chunk_text text w o) = text := by
  have hmax1 : (1 : Int) ≤ max 1 (w - o) := le_max_left _ _
  have hmaxw : max 1 (w - o) ≤ w := max_le (by omega) (by omega)
  have hstep : 0 < (max 1 (w - o)).toNat := by omega
  have hsw : (max 1 (w - o)).toNat ≤ w.toNat := by omega
  have hct : chunk_text text w o =
      chunkLoop text w.toNat (max 1 (w - o)).toNat text.length 0 := by
    rw [chunk_text, if_neg (by omega)]
  refine ⟨?_, ?_, ?_⟩
  · intro i hi
    rw [hct] at hi ⊢
    have := chunkLoop_get text w.toNat (max 1 (w - o)).toNat hstep
      text.length 0 (by omega) i hi
    simpa using this
  · intro hne
    have hpos : 0 < text.length := by
      cases text with
      | nil => exact absurd rfl hne
      | cons c cs => simp
    rw [hct]
    have := chunkLoop_getLast text w.toNat (max 1 (w - o)).toNat hstep hsw
      text.length 0 (by omega) hpos
    simpa using this
  · rw [hct]
    have := chunkLoop_join text w.toNat (max 1 (w - o)).toNat hstep hsw
      text.length 0 (by omega)
    simpa using this

set_option maxRecDepth 100000 in
/-- Witness for C1 at the spec's concrete instance: window 600, overlap 60 on
a 1000-character text gives step 540, chunks `[0:600]` and `[540:1000]`
(starts 0 and 540, last chunk ending exactly at 1000), and the
non-overlapping portions reconstruct the text. -/
theorem chunk_text_spec_witness :
    (0 : Int) < 600 ∧ (0 : Int) ≤ 60 ∧
    (max 1 ((600 : Int) - 60)).toNat = 540 ∧
    chunk_text (List.range 1000) 600 60 = [List.range' 0 600, List.range' 540 460] ∧
    joinNonOverlap (max 1 ((600 : Int) - 60)).toNat
      (chunk_text (List.range 1000) 600 60) = List.range 1000 :=
  ⟨by norm_num, by norm_num, by decide, by decide,
    (chunk_text_spec (List.range 1000) 600 60 (by norm_num) (by norm_num)).2.2⟩

/-- C8: `chunk_text` terminates on every text for every window `w > 0`
(whatever the overlap, including overlap ≥ window, thanks to the step being
clamped to at least 1): the produced chunk sequence is finite, with at most
one chunk per character of the text. -/
theorem chunk_text_terminates {α : Type} (text : List α) (w o : Int)
    (hw : 0 < w) :
    (chunk_text text w o).length ≤ text.length := by
  have hmax1 : (1 : Int) ≤ max 1 (w - o) := le_max_left _ _
  have hstep : 0 < (max 1 (w - o)).toNat := by omega
  rw [chunk_text, if_neg (by omega)]
  have := chunkLoop_length_le text w.toNat (max 1 (w - o)).toNat hstep
    text.length 0 (by omega)
  simpa using this

/-- Witness for C8 with overlap 5 ≥ window 2 (the step clamps to 1): the
chunking of a 6-character text is finite, with the chunk sequence that the
clamped step produces. -/
theorem chunk_text_terminates_witness :
    (0 : Int) < 2 ∧ ((2 : Int) ≤ 5) ∧
    (chunk_text (List.range 6) 2 5).length ≤ 6 ∧
    chunk_text (List.range 6) 2 5 = [[0, 1], [1, 2], [2, 3], [3, 4], [4, 5]] :=
  ⟨by norm_num, by norm_num,
    by simpa using chunk_text_terminates (List.range 6) 2 5 (by norm_num),
    by decide⟩

/-- C9: for every global target `R ≥ 1` and URL count `U ≥ 1`, the per-URL
target computed by the orchestrator (`per_url_target`, inlined at the top of
the `/extract` handler) equals `max 1 ⌈R / U⌉`; in particular `R = 25, U = 4`
gives 7 and `R = 1, U = 1` gives 1. -/
theorem per_url_target_spec (R U : Nat) (hR : 1 ≤ R) (hU : 1 ≤ U) :
    per_url_target R U = max 1 ⌈(R : ℚ) / (U : ℚ)⌉₊
    ∧ per_url_target 25 4 = 7 ∧ per_url_target 1 1 = 1 := by
  refine ⟨?_, by decide, by decide⟩
  rw [per_url_target, max_eq_right hU, ceilDivNat_eq_ceil R U hR hU]

/-- Witness for C9 at the spec's concrete instances. -/
theorem per_url_target_spec_witness :
    per_url_target 25 4 = max 1 ⌈(25 : ℚ) / (4 : ℚ)⌉₊ ∧
    per_url_target 25 4 = 7 ∧ per_url_target 1 1 = 1 :=
  per_url_target_spec 25 4 (by norm_num) (by norm_num)

/-! ## JSON values

Model of the Python/JSON data reachable by the service: `None`, booleans,
numbers (the integer fragment — the claims never exercise float literals),
strings, lists and string-keyed dicts (association lists in insertion
order, as Python dicts are ordered). -/

inductive JVal where
  | null
  | bool (b : Bool)
  | num (n : Int)
  | str (s : String)
  | arr (xs : List JVal)
  | obj (kvs : List (String × JVal))

mutual

/-- Structural equality of JSON values (Python `==` on parsed values). -/
def JVal.beq : JVal → JVal → Bool
  | .null, .null => true
  | .bool a, .bool b => a == b
  | .num a, .num b => a == b
  | .str a, .str b => a == b
  | .arr a, .arr b => JVal.beqList a b
  | .obj a, .obj b => JVal.beqObj a b
  | _, _ => false

def JVal.beqList : List JVal → List JVal → Bool
  | [], [] => true
  | a :: as, b :: bs => JVal.beq a b && JVal.beqList as bs
  | _, _ => false

def JVal.beqObj : List (String × JVal) → List (String × JVal) → Bool
  | [], [] => true
  | (k1, v1) :: as, (k2, v2) :: bs =>
      (k1 = k2 : Bool) && JVal.beq v1 v2 && JVal.beqObj as bs
  | _, _ => false

end

mutual

theorem JVal.beq_eq : (a b : JVal) → (JVal.beq a b = true ↔ a = b)
  | .null, .null => by simp [JVal.beq]
  | .bool a, .bool b => by simp [JVal.beq]
  | .num a, .num b => by simp [JVal.beq]
  | .str a, .str b => by simp [JVal.beq]
  | .arr a, .arr b => by
      have h := JVal.beqList_eq a b
      simp [JVal.beq, h]
  | .obj a, .obj b => by
      have h := JVal.beqObj_eq a b
      simp [JVal.beq, h]
  | .null, .bool _ | .null, .num _ | .null, .str _ | .null, .arr _ | .null, .obj _
  | .bool _, .null | .bool _, .num _ | .bool _, .str _ | .bool _, .arr _ | .bool _, .obj _
  | .num _, .null | .num _, .bool _ | .num _, .str _ | .num _, .arr _ | .num _, .obj _
  | .str _, .null | .str _, .bool _ | .str _, .num _ | .str _, .arr _ | .str _, .obj _
  | .arr _, .null | .arr _, .bool _ | .arr _, .num _ | .arr _, .str _ | .arr _, .obj _
  | .obj _, .null | .obj _, .bool _ | .obj _, .num _ | .obj _, .str _ | .obj _, .arr _ =>
      by simp [JVal.beq]

theorem JVal.beqList_eq : (a b : List JVal) → (JVal.beqList a b = true ↔ a = b)
  | [], [] => by simp [JVal.beqList]
  | [], _ :: _ => by simp [JVal.beqList]
  | _ :: _, [] => by simp [JVal.beqList]
  | a :: as, b :: bs => by
      have h1 := JVal.beq_eq a b
      have h2 := JVal.beqList_eq as bs
      simp [JVal.beqList, h1, h2]

theorem JVal.beqObj_eq : (a b : List (String × JVal)) → (JVal.beqObj a b = true ↔ a = b)
  | [], [] => by simp [JVal.beqObj]
  | [], _ :: _ => by simp [JVal.beqObj]
  | _ :: _, [] => by simp [JVal.beqObj]
  | (k1, v1) :: as, (k2, v2) :: bs => by
      have h1 := JVal.beq_eq v1 v2
      have h2 := JVal.beqObj_eq as bs
      simp [JVal.beqObj, h1, h2, and_assoc, Prod.ext_iff]

end

instance : DecidableEq JVal := fun a b => decidable_of_iff _ (JVal.beq_eq a b)

/-- An extracted row: a Python dict from field names to JSON values, in
insertion order. -/
abbrev Row : Type := List (String × JVal)

/-- Lexicographic code-point order on strings (as lists of characters):
Python's `str` comparison, which `sorted`/`sort_keys=True` uses. -/
def strLeb : List Char → List Char → Bool
  | [], _ => true
  | _ :: _, [] => false
  | a :: as, b :: bs =>
    if a.toNat < b.toNat then true
    else if b.toNat < a.toNat then false
    else strLeb as bs

theorem strLeb_cons_iff (a b : Char) (as bs : List Char) :
    strLeb (a :: as) (b :: bs) = true ↔
      a.toNat < b.toNat ∨ (a.toNat = b.toNat ∧ strLeb as bs = true) := by
  rcases Nat.lt_trichotomy a.toNat b.toNat with h | h | h
  · simp [strLeb, h]
  · simp [strLeb, h]
  · simp only [strLeb, if_neg (by omega : ¬ a.toNat < b.toNat), if_pos h]
    constructor
    · intro hfalse; cases hfalse
    · intro hor; omega

theorem strLeb_total : ∀ a b, strLeb a b = true ∨ strLeb b a = true
  | [], _ => Or.inl rfl
  | _ :: _, [] => Or.inr rfl
  | a :: as, b :: bs => by
    rw [strLeb_cons_iff, strLeb_cons_iff]
    rcases Nat.lt_trichotomy a.toNat b.toNat with h | h | h
    · left; omega
    · rcases strLeb_total as bs with ih | ih
      · left; right; exact ⟨h, ih⟩
      · right; right; exact ⟨h.symm, ih⟩
    · right; left; omega

theorem strLeb_trans : ∀ a b c, strLeb a b = true → strLeb b c = true →
    strLeb a c = true
  | [], _, _ => by intro _ _; rfl
  | _ :: _, [], _ => by intro h _; simp [strLeb] at h
  | _ :: _, _ :: _, [] => by intro _ h; simp [strLeb] at h
  | a :: as, b :: bs, c :: cs => by
    rw [strLeb_cons_iff, strLeb_cons_iff, strLeb_cons_iff]
    intro h1 h2
    rcases h1 with h1 | ⟨h1e, h1t⟩
    · rcases h2 with h2 | ⟨h2e, _⟩
      · left; omega
      · left; omega
    · rcases h2 with h2 | ⟨h2e, h2t⟩
      · left; omega
      · right; exact ⟨by omega, strLeb_trans as bs cs h1t h2t⟩

theorem strLeb_antisymm : ∀ a b, strLeb a b = true → strLeb b a = true → a = b
  | [], [] => by intro _ _; rfl
  | [], _ :: _ => by intro _ h; simp [strLeb] at h
  | _ :: _, [] => by intro h _; simp [strLeb] at h
  | a :: as, b :: bs => by
    rw [strLeb_cons_iff, strLeb_cons_iff]
    intro h1 h2
    rcases h1 with h1 | ⟨h1e, h1t⟩
    · rcases h2 with h2 | ⟨h2e, _⟩ <;> omega
    · rcases h2 with h2 | ⟨h2e, h2t⟩
      · omega
      · have hval : a = b := Char.eq_of_val_eq (UInt32.ext h1e)
        have htl : as = bs := strLeb_antisymm as bs h1t h2t
        rw [hval, htl]

/-- Key order used by `sort_keys=True`: compare entries by their key. -/
def pairLe (p q : String × JVal) : Prop := strLeb p.1.data q.1.data = true

instance : DecidableRel pairLe := fun p q =>
  inferInstanceAs (Decidable (strLeb p.1.data q.1.data = true))

instance : IsTotal (String × JVal) pairLe := ⟨fun a b => strLeb_total a.1.data b.1.data⟩

instance : IsTrans (String × JVal) pairLe :=
  ⟨fun a b c => strLeb_trans a.1.data b.1.data c.1.data⟩

theorem pairLe_key_antisymm {p q : String × JVal} (h1 : pairLe p q) (h2 : pairLe q p) :
    p.1 = q.1 := by
  have hdata : p.1.data = q.1.data := strLeb_antisymm _ _ h1 h2
  cases hp : p.1 with
  | mk d1 =>
    cases hq : q.1 with
    | mk d2 =>
      rw [hp, hq] at hdata
      exact congrArg String.mk hdata

/-- Stable sort of a dict's entries by key. -/
def sortPairs (l : List (String × JVal)) : List (String × JVal) :=
  List.insertionSort pairLe l

mutual

/-- Canonical form of a JSON value under `json.dumps(·, sort_keys=True)`:
object keys are sorted (recursively) and everything else is unchanged.  Two
values have the same `sort_keys` serialization iff their canonical forms are
equal. -/
def canon : JVal → JVal
  | .null => .null
  | .bool b => .bool b
  | .num n => .num n
  | .str s => .str s
  | .arr xs => .arr (canonList xs)
  | .obj kvs => .obj (sortPairs (canonPairs kvs))

def canonList : List JVal → List JVal
  | [] => []
  | v :: vs => canon v :: canonList vs

def canonPairs : List (String × JVal) → List (String × JVal)
  | [] => []
  | (k, v) :: kvs => (k, canon v) :: canonPairs kvs

end

/-- `json.dumps(r, sort_keys=True)` as used for duplicate detection in
`dedupe_rows`: two rows get the same dump string iff they have the same
canonical key-sorted form. -/
def rowKey (r : Row) : Row :=
  sortPairs (canonPairs r)

/-- Python dict lookup `d[k]` / `k in d` on the association-list model
(first matching key; dicts never hold duplicate keys). -/
def alookup (k : String) : List (String × JVal) → Option JVal
  | [] => none
  | (k', v) :: rest => if k' = k then some v else alookup k rest

theorem alookup_eq_none_iff (k : String) :
    ∀ l : List (String × JVal), alookup k l = none ↔ k ∉ l.map Prod.fst
  | [] => by simp [alookup]
  | (k', v) :: rest => by
    by_cases h : k' = k
    · subst h; simp [alookup]
    · simp [alookup, h, alookup_eq_none_iff k rest, Ne.symm h]

theorem mem_of_alookup_eq_some {k : String} {v : JVal} :
    ∀ {l : List (String × JVal)}, alookup k l = some v → k ∈ l.map Prod.fst := by
  intro l h
  by_contra hmem
  rw [← alookup_eq_none_iff] at hmem
  rw [hmem] at h
  cases h

theorem alookup_canonPairs (k : String) :
    ∀ l : List (String × JVal), alookup k (canonPairs l) = (alookup k l).map canon
  | [] => by simp [canonPairs, alookup]
  | (k', v) :: rest => by
    by_cases h : k' = k <;>
      simp [canonPairs, alookup, h, alookup_canonPairs k rest]

theorem keys_canonPairs :
    ∀ l : List (String × JVal), (canonPairs l).map Prod.fst = l.map Prod.fst
  | [] => rfl
  | (k, v) :: rest => by simp [canonPairs, keys_canonPairs rest]

theorem sortPairs_perm (l : List (String × JVal)) : (sortPairs l).Perm l :=
  List.perm_insertionSort pairLe l

theorem sortPairs_sorted (l : List (String × JVal)) :
    List.Sorted pairLe (sortPairs l) :=
  List.sorted_insertionSort pairLe l

/-- Lookup is invariant under permutation of an association list with
distinct keys. -/
theorem alookup_perm (k : String) {l1 l2 : List (String × JVal)}
    (hp : l1.Perm l2) (hnd : (l1.map Prod.fst).Nodup) :
    alookup k l1 = alookup k l2 := by
  induction hp with
  | nil => rfl
  | cons x l ih =>
    obtain ⟨kx, vx⟩ := x
    by_cases h : kx = k
    · simp [alookup, h]
    · simp only [alookup, if_neg h]
      exact ih (by simpa using hnd.sublist (List.sublist_cons_self _ _))
  | swap x y l =>
    obtain ⟨kx, vx⟩ := x
    obtain ⟨ky, vy⟩ := y
    have hxy : ky ≠ kx := by
      simp only [List.map_cons, List.nodup_cons, List.mem_cons] at hnd
      exact fun h => hnd.1 (Or.inl h)
    by_cases hx : kx = k <;> by_cases hy : ky = k <;>
      simp [alookup, hx, hy]
    exact absurd (hy.trans hx.symm) hxy
  | trans h12 h23 ih12 ih23 =>
    rw [ih12 hnd]
    exact ih23 ((h12.map Prod.fst).nodup_iff.mp hnd)

/-- Two association lists that are strictly sorted by key and agree on every
lookup are equal. -/
theorem sorted_alookup_ext :
    ∀ l1 l2 : List (String × JVal),
      l1.Pairwise (fun p q => pairLe p q ∧ p.1 ≠ q.1) →
      l2.Pairwise (fun p q => pairLe p q ∧ p.1 ≠ q.1) →
      (∀ k, alookup k l1 = alookup k l2) → l1 = l2
  | [], [], _, _, _ => rfl
  | [], (k2, v2) :: t2, _, _, hl => by
    have h := (hl k2).symm
    simp [alookup] at h
  | (k1, v1) :: t1, [], _, _, hl => by
    have h := hl k1
    simp [alookup] at h
  | (k1, v1) :: t1, (k2, v2) :: t2, hs1, hs2, hl => by
    have hhd1 : alookup k1 ((k1, v1) :: t1) = some v1 := by simp [alookup]
    have hhd2 : alookup k2 ((k2, v2) :: t2) = some v2 := by simp [alookup]
    have hk : k1 = k2 := by
      by_contra hne
      have hm1 : k1 ∈ ((k2, v2) :: t2).map Prod.fst :=
        mem_of_alookup_eq_some ((hl k1).symm ▸ hhd1)
      have hm2 : k2 ∈ ((k1, v1) :: t1).map Prod.fst :=
        mem_of_alookup_eq_some ((hl k2) ▸ hhd2)
      simp only [List.map_cons, List.mem_cons] at hm1 hm2
      rcases hm1 with h | hm1
      · exact hne h
      · rcases hm2 with h | hm2
        · exact hne h.symm
        · obtain ⟨p1, hp1mem, hp1⟩ := List.mem_map.mp hm2
          obtain ⟨p2, hp2mem, hp2⟩ := List.mem_map.mp hm1
          have hr1 := (List.pairwise_cons.mp hs1).1 p1 hp1mem
          have hr2 := (List.pairwise_cons.mp hs2).1 p2 hp2mem
          have ha : strLeb k1.data p1.1.data = true := hr1.1
          have hb : strLeb k2.data p2.1.data = true := hr2.1
          rw [hp1] at ha
          rw [hp2] at hb
          exact hne (@pairLe_key_antisymm (k1, v1) (k2, v2) ha hb)
    subst hk
    have hv : v1 = v2 := by
      have h := hl k1
      simp [alookup] at h
      exact h
    subst hv
    have htl : t1 = t2 := by
      apply sorted_alookup_ext t1 t2 (List.pairwise_cons.mp hs1).2
        (List.pairwise_cons.mp hs2).2
      intro k
      by_cases hkk : k = k1
      · subst hkk
        have hn1 : alookup k t1 = none := by
          rw [alookup_eq_none_iff]
          intro hmem
          obtain ⟨p, hpmem, hp⟩ := List.mem_map.mp hmem
          exact ((List.pairwise_cons.mp hs1).1 p hpmem).2 hp.symm
        have hn2 : alookup k t2 = none := by
          rw [alookup_eq_none_iff]
          intro hmem
          obtain ⟨p, hpmem, hp⟩ := List.mem_map.mp hmem
          exact ((List.pairwise_cons.mp hs2).1 p hpmem).2 hp.symm
        rw [hn1, hn2]
      · have hkk' : k1 ≠ k := fun h => hkk h.symm
        have h := hl k
        simpa [alookup, hkk'] using h
    rw [htl]

/-! ## RowDeduplicator: `dedupe_rows` (main.py lines 194-203) -/

/-- The `for r in rows` loop of `dedupe_rows` with the `seen` set of
serialized keys (the output accumulator is returned directly). -/
def dedupeGo (seen : List Row) : List Row → List Row
  | [] => []
  | r :: rest =>
    if rowKey r ∈ seen then dedupeGo seen rest
    else r :: dedupeGo (rowKey r :: seen) rest

/-- `dedupe_rows(rows)`: keep the first occurrence of each row, where rows
are compared by their canonical key-sorted serialization. -/
def dedupe_rows (rows : List Row) : List Row :=
  dedupeGo [] rows

theorem rowKey_keys_nodup {r : Row} (h : (r.map Prod.fst).Nodup) :
    ((rowKey r).map Prod.fst).Nodup := by
  have hperm : ((rowKey r).map Prod.fst).Perm ((canonPairs r).map Prod.fst) :=
    (sortPairs_perm (canonPairs r)).map Prod.fst
  rw [hperm.nodup_iff, keys_canonPairs]
  exact h

theorem rowKey_alookup {r : Row} (h : (r.map Prod.fst).Nodup) (k : String) :
    alookup k (rowKey r) = (alookup k r).map canon := by
  rw [← alookup_canonPairs]
  exact alookup_perm k (sortPairs_perm _) (rowKey_keys_nodup h)

theorem rowKey_strict {r : Row} (h : (r.map Prod.fst).Nodup) :
    (rowKey r).Pairwise (fun p q => pairLe p q ∧ p.1 ≠ q.1) := by
  have hsorted : (rowKey r).Pairwise pairLe := sortPairs_sorted (canonPairs r)
  have hne : (rowKey r).Pairwise (fun p q => p.1 ≠ q.1) :=
    List.pairwise_map.mp (rowKey_keys_nodup h)
  exact hsorted.and hne

/-- Two rows have the same canonical key-sorted serialization iff they agree
on every key (same key sets, same canonical value per key) — independent of
the key insertion order within each row. -/
theorem rowKey_eq_iff {r1 r2 : Row}
    (h1 : (r1.map Prod.fst).Nodup) (h2 : (r2.map Prod.fst).Nodup) :
    rowKey r1 = rowKey r2 ↔
      ∀ k, (alookup k r1).map canon = (alookup k r2).map canon := by
  constructor
  · intro heq k
    rw [← rowKey_alookup h1 k, ← rowKey_alookup h2 k, heq]
  · intro hlk
    apply sorted_alookup_ext _ _ (rowKey_strict h1) (rowKey_strict h2)
    intro k
    rw [rowKey_alookup h1 k, rowKey_alookup h2 k]
    exact hlk k

theorem dedupeGo_sublist : ∀ (l : List Row) (seen : List Row),
    (dedupeGo seen l).Sublist l
  | [], _ => by simp [dedupeGo]
  | x :: rest, seen => by
    by_cases h : rowKey x ∈ seen
    · simp only [dedupeGo, if_pos h]
      exact (dedupeGo_sublist rest seen).cons x
    · simp only [dedupeGo, if_neg h]
      exact (dedupeGo_sublist rest _).cons₂ x

theorem mem_dedupeGo_not_seen : ∀ (l : List Row) (seen : List Row) (r : Row),
    r ∈ dedupeGo seen l → rowKey r ∉ seen
  | [], seen, r => by simp [dedupeGo]
  | x :: rest, seen, r => by
    by_cases h : rowKey x ∈ seen
    · simp only [dedupeGo, if_pos h]
      exact mem_dedupeGo_not_seen rest seen r
    · simp only [dedupeGo, if_neg h, List.mem_cons]
      intro hmem
      rcases hmem with rfl | hmem
      · exact h
      · have hnotin := mem_dedupeGo_not_seen rest _ r hmem
        exact fun hs => hnotin (List.mem_cons_of_mem _ hs)

theorem dedupeGo_pairwise : ∀ (l : List Row) (seen : List Row),
    (dedupeGo seen l).Pairwise (fun a b => rowKey a ≠ rowKey b)
  | [], seen => by simp [dedupeGo]
  | x :: rest, seen => by
    by_cases h : rowKey x ∈ seen
    · simp only [dedupeGo, if_pos h]
      exact dedupeGo_pairwise rest seen
    · simp only [dedupeGo, if_neg h]
      refine List.pairwise_cons.mpr ⟨?_, dedupeGo_pairwise rest _⟩
      intro b hb heq
      have hnotin := mem_dedupeGo_not_seen rest _ b hb
      exact hnotin (by rw [← heq]; exact List.mem_cons_self _ _)

theorem dedupeGo_of_pairwise : ∀ (l : List Row) (seen : List Row),
    l.Pairwise (fun a b => rowKey a ≠ rowKey b) →
    (∀ r ∈ l, rowKey r ∉ seen) → dedupeGo seen l = l
  | [], _, _, _ => rfl
  | x :: rest, seen, hp, hs => by
    have hx : rowKey x ∉ seen := hs x (List.mem_cons_self _ _)
    simp only [dedupeGo, if_neg hx]
    congr 1
    apply dedupeGo_of_pairwise rest _ (List.pairwise_cons.mp hp).2
    intro r hr hmem
    rcases List.mem_cons.mp hmem with heq | hmem'
    · exact (List.pairwise_cons.mp hp).1 r hr heq.symm
    · exact hs r (List.mem_cons_of_mem _ hr) hmem'

/-- The spec's description of deduplication: keep each row and drop every
later row with the same canonical serialization (so exactly the first
occurrence of each row survives, in order). -/
def dedupeSpecFirstOcc : List Row → List Row
  | [] => []
  | r :: rest =>
    r :: dedupeSpecFirstOcc (rest.filter (fun x => decide (rowKey x ≠ rowKey r)))
termination_by l => l.length
decreasing_by
  simp only [List.length_cons]
  exact Nat.lt_succ_of_le (List.length_filter_le _ _)

theorem dedupeGo_eq_spec : ∀ (l : List Row) (seen : List Row),
    dedupeGo seen l =
      dedupeSpecFirstOcc (l.filter (fun r => decide (rowKey r ∉ seen)))
  | [], seen => by simp [dedupeGo, dedupeSpecFirstOcc]
  | x :: rest, seen => by
    by_cases h : rowKey x ∈ seen
    · simp only [dedupeGo, if_pos h]
      rw [dedupeGo_eq_spec rest seen]
      congr 1
      simp [List.filter_cons, h]
    · simp only [dedupeGo, if_neg h]
      rw [dedupeGo_eq_spec rest (rowKey x :: seen)]
      have hfx : (x :: rest).filter (fun r => decide (rowKey r ∉ seen)) =
          x :: rest.filter (fun r => decide (rowKey r ∉ seen)) := by
        simp [List.filter_cons, h]
      rw [hfx, dedupeSpecFirstOcc]
      congr 2
      rw [List.filter_filter]
      apply List.filter_congr
      intro a _
      simp only [List.mem_cons, not_or]
      by_cases h1 : rowKey a = rowKey x <;> by_cases h2 : rowKey a ∈ seen <;>
        simp [h1, h2]

/-- C4: `dedupe_rows` returns the subsequence of its input keeping exactly
the first occurrence of each row (rows being equal iff their canonical
key-sorted serializations are identical, i.e. iff they agree on every key
independently of key insertion order); it preserves first-occurrence order,
is idempotent, and `dedupe_rows [{a:1}, {a:1}] = [{a:1}]`. -/
theorem dedupe_rows_spec (rows : List Row) (r1 r2 : Row)
    (h1 : (r1.map Prod.fst).Nodup) (h2 : (r2.map Prod.fst).Nodup) :
    (dedupe_rows rows).Sublist rows
    ∧ dedupe_rows rows = dedupeSpecFirstOcc rows
    ∧ (rowKey r1 = rowKey r2 ↔
        ∀ k, (alookup k r1).map canon = (alookup k r2).map canon)
    ∧ dedupe_rows (dedupe_rows rows) = dedupe_rows rows
    ∧ dedupe_rows [[("a", JVal.num 1)], [("a", JVal.num 1)]] =
        [[("a", JVal.num 1)]] := by
  refine ⟨dedupeGo_sublist rows [], ?_, rowKey_eq_iff h1 h2, ?_, by decide⟩
  · rw [dedupe_rows, dedupeGo_eq_spec]
    congr 1
    simp
  · exact dedupeGo_of_pairwise _ [] (dedupeGo_pairwise rows []) (by simp)

/-- Witness for C4: the spec's concrete duplicate pair collapses to one row,
and two rows listing the same fields in different orders have identical
canonical serializations (the iff instantiated at concrete rows). -/
theorem dedupe_rows_spec_witness :
    dedupe_rows [[("a", JVal.num 1)], [("a", JVal.num 1)]] = [[("a", JVal.num 1)]]
    ∧ (rowKey [("a", JVal.num 1), ("b", JVal.num 2)] =
        rowKey [("b", JVal.num 2), ("a", JVal.num 1)] ↔
      ∀ k, (alookup k [("a", JVal.num 1), ("b", JVal.num 2)]).map canon =
        (alookup k [("b", JVal.num 2), ("a", JVal.num 1)]).map canon) :=
  ⟨(dedupe_rows_spec [] [] [] (by decide) (by decide)).2.2.2.2,
   (dedupe_rows_spec [] [("a", JVal.num 1), ("b", JVal.num 2)]
      [("b", JVal.num 2), ("a", JVal.num 1)] (by decide) (by decide)).2.2.1⟩

/-! ## ResultParser: `extract_json_candidates` (main.py lines 110-119)

The three `re.findall` scans are modelled directly: Python's regex engine
finds non-overlapping matches left to right, and all three patterns are lazy,
so each match pairs a start marker with the nearest following end marker. -/

/-- `startsWithL pat s`: `s` begins with `pat`. -/
def startsWithL : List Char → List Char → Bool
  | [], _ => true
  | _ :: _, [] => false
  | p :: ps, c :: cs => p == c && startsWithL ps cs

/-- Split at the first occurrence of character `c`: `some (before, after)`
with `c` itself consumed, or `none` if `c` does not occur. -/
def splitAtChar (c : Char) : List Char → Option (List Char × List Char)
  | [] => none
  | x :: xs =>
    if x = c then some ([], xs)
    else (splitAtChar c xs).map (fun p => (x :: p.1, p.2))

theorem splitAtChar_length {c : Char} :
    ∀ {s a b : List Char}, splitAtChar c s = some (a, b) → b.length < s.length := by
  intro s
  induction s with
  | nil => intro a b h; simp [splitAtChar] at h
  | cons x xs ih =>
    intro a b h
    by_cases hx : x = c
    · simp only [splitAtChar, if_pos hx, Option.some.injEq] at h
      obtain ⟨_, rfl⟩ := Prod.mk.injEq .. ▸ h
      simp only [List.length_cons]
      omega
    · simp only [splitAtChar, if_neg hx, Option.map_eq_some'] at h
      obtain ⟨⟨a', b'⟩, hsplit, heq⟩ := h
      obtain ⟨_, rfl⟩ := Prod.mk.injEq .. ▸ heq
      have := ih hsplit
      simp only [List.length_cons]
      omega

theorem startsWithL_length :
    ∀ {pat s : List Char}, startsWithL pat s = true → pat.length ≤ s.length
  | [], _ => by intro _; simp
  | _ :: _, [] => by intro h; simp [startsWithL] at h
  | p :: ps, c :: cs => by
    intro h
    simp only [startsWithL, Bool.and_eq_true] at h
    have := startsWithL_length h.2
    simp only [List.length_cons]
    omega

/-- Split at the first occurrence of the substring `sub`: `some (before,
after)` with `sub` itself consumed, or `none` if `sub` does not occur. -/
def splitAtSub (sub : List Char) : List Char → Option (List Char × List Char)
  | [] => if sub.isEmpty then some ([], []) else none
  | c :: rest =>
    if startsWithL sub (c :: rest) then some ([], (c :: rest).drop sub.length)
    else (splitAtSub sub rest).map (fun p => (c :: p.1, p.2))

theorem splitAtSub_length {sub : List Char} (hsub : sub ≠ []) :
    ∀ {s a b : List Char}, splitAtSub sub s = some (a, b) →
      b.length + sub.length ≤ s.length := by
  intro s
  induction s with
  | nil =>
    intro a b h
    simp [splitAtSub, List.isEmpty_iff, hsub] at h
  | cons x xs ih =>
    intro a b h
    by_cases hx : startsWithL sub (x :: xs) = true
    · simp only [splitAtSub, if_pos hx, Option.some.injEq] at h
      obtain ⟨_, rfl⟩ := Prod.mk.injEq .. ▸ h
      have hlen : sub.length ≤ (x :: xs).length := startsWithL_length hx
      simp only [List.length_drop]
      simp only [List.length_cons] at hlen ⊢
      have hpos : 0 < sub.length := List.length_pos.mpr hsub
      omega
    · simp only [splitAtSub, if_neg hx, Option.map_eq_some'] at h
      obtain ⟨⟨a', b'⟩, hsplit, heq⟩ := h
      obtain ⟨_, rfl⟩ := Prod.mk.injEq .. ▸ heq
      have := ih hsplit
      simp only [List.length_cons]
      omega

/-- One `findall` pass of `r"\[(?:.|\n)*?\]"` (resp. `r"\{(?:.|\n)*?\}"`):
take the first opening character, pair it lazily with the nearest following
closing character, emit the fragment delimiters included, and continue after
it.  Driven by a fuel counter so that the definition reduces in the kernel;
each emitted match consumes at least two characters, so fuel `s.length`
never runs out before the scan is complete. -/
def findDelimGo (op cl : Char) : Nat → List Char → List (List Char)
  | 0, _ => []
  | fuel + 1, s =>
    match splitAtChar op s with
    | none => []
    | some (_, afterOp) =>
      match splitAtChar cl afterOp with
      | none => []
      | some (between, afterCl) =>
        (op :: (between ++ [cl])) :: findDelimGo op cl fuel afterCl

/-- All bracketed (resp. brace-delimited) fragments of `s`, in order of
occurrence. -/
def findDelim (op cl : Char) (s : List Char) : List (List Char) :=
  findDelimGo op cl s.length s

/-- ASCII case-insensitive character comparison (`re.IGNORECASE`). -/
def charCaseEq (p c : Char) : Bool := p.toLower == c.toLower

/-- ASCII case-insensitive prefix test. -/
def startsWithCI : List Char → List Char → Bool
  | [], _ => true
  | _ :: _, [] => false
  | p :: ps, c :: cs => charCaseEq p c && startsWithCI ps cs

/-- The fence opener `` ```json `` (the letters case-insensitively, per
`re.IGNORECASE`). -/
def fenceOpen : List Char := ['`', '`', '`', 'j', 's', 'o', 'n']

/-- Find the first occurrence of the fence opener; return the rest of the
text after it. -/
def findFenceOpen : List Char → Option (List Char)
  | [] => none
  | c :: rest =>
    if startsWithCI fenceOpen (c :: rest) then some ((c :: rest).drop fenceOpen.length)
    else findFenceOpen rest

/-- Python regex `\s` (ASCII range): space, tab, newline, carriage return,
vertical tab, form feed. -/
def isPyWs (c : Char) : Bool :=
  c = ' ' || c = '\t' || c = '\n' || c = '\r' || c = '\x0b' || c = '\x0c'

/-- Greedy `\s*`. -/
def skipPyWs : List Char → List Char
  | [] => []
  | c :: rest => if isPyWs c then skipPyWs rest else c :: rest

theorem findFenceOpen_length :
    ∀ {s rest : List Char}, findFenceOpen s = some rest → rest.length < s.length := by
  intro s
  induction s with
  | nil => intro rest h; simp [findFenceOpen] at h
  | cons x xs ih =>
    intro rest h
    by_cases hx : startsWithCI fenceOpen (x :: xs) = true
    · simp only [findFenceOpen, if_pos hx, Option.some.injEq] at h
      subst h
      simp only [List.length_drop, List.length_cons]
      cases xs with
      | nil => simp [startsWithCI, fenceOpen] at hx
      | cons y ys => simp [fenceOpen]; omega
    · simp only [findFenceOpen, if_neg hx] at h
      have := ih h
      simp only [List.length_cons]
      omega

theorem skipPyWs_length : ∀ s : List Char, (skipPyWs s).length ≤ s.length
  | [] => le_refl _
  | c :: rest => by
    by_cases h : isPyWs c = true
    · simp only [skipPyWs, if_pos h, List.length_cons]
      have := skipPyWs_length rest
      omega
    · simp [skipPyWs, if_neg h]

/-- One `findall` pass of `` r"```json\s*(.*?)```" `` (DOTALL, IGNORECASE):
find the next fence opener, skip the whitespace run, capture lazily up to
the nearest closing `` ``` ``, and continue after it (fuelled like
`findDelimGo`; each match consumes at least ten characters). -/
def findFencedGo : Nat → List Char → List (List Char)
  | 0, _ => []
  | fuel + 1, s =>
    match findFenceOpen s with
    | none => []
    | some afterOpen =>
      match splitAtSub ['`', '`', '`'] (skipPyWs afterOpen) with
      | none => []
      | some (content, afterClose) => content :: findFencedGo fuel afterClose

/-- All ```` ```json … ``` ```` blocks of `s` (captured contents), in order
of occurrence. -/
def findFenced (s : List Char) : List (List Char) :=
  findFencedGo s.length s

/-- `extract_json_candidates(text)`: all fenced blocks, then all bracketed
`[...]` fragments, then all brace-delimited `{...}` fragments. -/
def extract_json_candidates (text : List Char) : List (List Char) :=
  findFenced text ++ findDelim '[' ']' text ++ findDelim '{' '}' text

/-! ## `json.loads` (external collaborator, modelled as an executable
recursive-descent JSON parser)

The model covers exactly the JSON grammar over the values of `JVal`:
`null`/`true`/`false`, integer numbers (float literals — fraction or
exponent parts — and `\uXXXX` string escapes are rejected; the service's
claims never exercise them), strings with the standard single-character
escapes, arrays, and objects (duplicate keys overwrite in place, as Python
dicts do).  Parsing is fuelled; the fuel passed by `json_loads` is far above
the number of grammar steps an input of that length can take. -/

/-- JSON whitespace (space, tab, newline, carriage return). -/
def isJsonWs (c : Char) : Bool := c = ' ' || c = '\t' || c = '\n' || c = '\r'

def skipJsonWs : List Char → List Char
  | [] => []
  | c :: rest => if isJsonWs c then skipJsonWs rest else c :: rest

/-- Body of a JSON string after the opening quote: returns the decoded
characters and the rest after the closing quote. -/
def parseStringBody : List Char → Option (List Char × List Char)
  | [] => none
  | '"' :: rest => some ([], rest)
  | '\\' :: e :: rest =>
    (match e with
      | '"' => some '"'
      | '\\' => some '\\'
      | '/' => some '/'
      | 'n' => some '\n'
      | 't' => some '\t'
      | 'r' => some '\r'
      | 'b' => some '\x08'
      | 'f' => some '\x0c'
      | _ => none).bind
      (fun c => (parseStringBody rest).map
        (fun (p : List Char × List Char) => (c :: p.1, p.2)))
  | c :: rest =>
    if c.toNat < 32 then none
    else (parseStringBody rest).map
      (fun (p : List Char × List Char) => (c :: p.1, p.2))

/-- Read a maximal run of decimal digits, accumulating their value. -/
def digitsAcc (acc : Nat) : List Char → (Nat × List Char)
  | [] => (acc, [])
  | c :: rest =>
    if c.isDigit then digitsAcc (acc * 10 + (c.toNat - 48)) rest
    else (acc, c :: rest)

/-- A JSON number literal (integer fragment: optional minus, no leading
zeros; a following fraction or exponent makes the literal a float, which the
model rejects). -/
def parseNumber (s : List Char) : Option (Int × List Char) :=
  let signed : Bool × List Char := match s with
    | '-' :: rest => (true, rest)
    | _ => (false, s)
  match signed.2 with
  | [] => none
  | c :: rest =>
    if ¬ c.isDigit then none
    else if c = '0' && (match rest with | d :: _ => d.isDigit | [] => false) then none
    else
      match digitsAcc 0 (c :: rest) with
      | (n, r) =>
        match r with
        | x :: _ =>
          if x = '.' || x = 'e' || x = 'E' then none
          else some (if signed.1 then -(n : Int) else (n : Int), r)
        | [] => some (if signed.1 then -(n : Int) else (n : Int), [])

/-- Insert a key into an object under construction: a duplicate key
overwrites the value in place (Python dict semantics), otherwise the entry
is appended. -/
def objInsert (kvs : List (String × JVal)) (k : String) (v : JVal) :
    List (String × JVal) :=
  if kvs.any (fun p => p.1 == k) then
    kvs.map (fun p => if p.1 == k then (k, v) else p)
  else kvs ++ [(k, v)]

mutual

/-- One JSON value, with the rest of the input. -/
def parseVal : Nat → List Char → Option (JVal × List Char)
  | 0, _ => none
  | fuel + 1, s =>
    match skipJsonWs s with
    | 'n' :: 'u' :: 'l' :: 'l' :: rest => some (.null, rest)
    | 't' :: 'r' :: 'u' :: 'e' :: rest => some (.bool true, rest)
    | 'f' :: 'a' :: 'l' :: 's' :: 'e' :: rest => some (.bool false, rest)
    | '"' :: rest =>
      (parseStringBody rest).map
        (fun (p : List Char × List Char) => (JVal.str (String.mk p.1), p.2))
    | '[' :: rest => parseArrAfterOpen fuel rest
    | '{' :: rest => parseObjAfterOpen fuel rest
    | other => (parseNumber other).map (fun p => (.num p.1, p.2))

/-- An array body after `[`. -/
def parseArrAfterOpen : Nat → List Char → Option (JVal × List Char)
  | 0, _ => none
  | fuel + 1, s =>
    match skipJsonWs s with
    | ']' :: rest => some (.arr [], rest)
    | other => parseArrLoop fuel [] other

/-- Array elements: value, then `,` (continue) or `]` (done). -/
def parseArrLoop : Nat → List JVal → List Char → Option (JVal × List Char)
  | 0, _, _ => none
  | fuel + 1, acc, s =>
    match parseVal fuel s with
    | none => none
    | some (v, rest) =>
      match skipJsonWs rest with
      | ',' :: rest2 => parseArrLoop fuel (acc ++ [v]) rest2
      | ']' :: rest2 => some (.arr (acc ++ [v]), rest2)
      | _ => none

/-- An object body after `{`. -/
def parseObjAfterOpen : Nat → List Char → Option (JVal × List Char)
  | 0, _ => none
  | fuel + 1, s =>
    match skipJsonWs s with
    | '}' :: rest => some (.obj [], rest)
    | other => parseObjLoop fuel [] other

/-- Object members: `"key" : value`, then `,` (continue) or `}` (done). -/
def parseObjLoop : Nat → List (String × JVal) → List Char →
    Option (JVal × List Char)
  | 0, _, _ => none
  | fuel + 1, acc, s =>
    match skipJsonWs s with
    | '"' :: rest =>
      match parseStringBody rest with
      | none => none
      | some (key, rest2) =>
        match skipJsonWs rest2 with
        | ':' :: rest3 =>
          match parseVal fuel rest3 with
          | none => none
          | some (v, rest4) =>
            match skipJsonWs rest4 with
            | ',' :: rest5 => parseObjLoop fuel (objInsert acc (String.mk key) v) rest5
            | '}' :: rest5 => some (.obj (objInsert acc (String.mk key) v), rest5)
            | _ => none
        | _ => none
    | _ => none

end

/-- `json.loads(text)`: parse one JSON value and require that only
whitespace remains; `none` models the `json.JSONDecodeError` caught by
`safe_parse_rows`.  The fuel `4 * (length + 1)` dominates the grammar-step
count of any input of this length (each step consumes a character, and a
character triggers at most a handful of steps). -/
def json_loads (s : List Char) : Option JVal :=
  match parseVal (4 * (s.length + 1)) s with
  | none => none
  | some (v, rest) => if skipJsonWs rest = [] then some v else none

/-! ## ResultParser: `safe_parse_rows` (main.py lines 122-134) and the
row-recovery sequence of `call_openai_extract` (main.py lines 179-189) -/

/-- `[x for x in xs if isinstance(x, dict)]`. -/
def rowsOfList (xs : List JVal) : List Row :=
  xs.filterMap (fun x => match x with | .obj kvs => some kvs | _ => none)

/-- `safe_parse_rows(text)`: parse the text as JSON; a list yields its dict
elements, a dict with a `rows` list yields that list's dict elements, and
everything else — including any parse failure — yields `[]`. -/
def safe_parse_rows (text : List Char) : List Row :=
  match json_loads text with
  | some (.arr xs) => rowsOfList xs
  | some (.obj kvs) =>
    match alookup "rows" kvs with
    | some (.arr xs) => rowsOfList xs
    | _ => []
  | _ => []

/-- The candidate scan of `call_openai_extract`: parse each candidate in
order, returning the first non-empty row list. -/
def firstNonEmptyRows : List (List Char) → List Row
  | [] => []
  | c :: cs =>
    let rows := safe_parse_rows c
    if rows.isEmpty then firstNonEmptyRows cs else rows

/-- The full row-recovery pipeline applied to the model's response text
(main.py lines 179-189): direct parse first, then the candidate scan. -/
def parse_model_output (text : List Char) : List Row :=
  let rows := safe_parse_rows text
  if rows.isEmpty then firstNonEmptyRows (extract_json_candidates text) else rows

/-- C2: the result-parsing pipeline is total by construction (every function
above is a total Lean function: the Python `try/except` around `json.loads`
is the `Option` in `json_loads`), and any parse failure yields the empty
list: `safe_parse_rows` maps every failed parse to `[]`, and the whole
pipeline returns `[]` on the empty string, on prose with no brackets, and on
malformed JSON. -/
theorem parse_pipeline_total :
    (∀ text : List Char, json_loads text = none → safe_parse_rows text = [])
    ∧ safe_parse_rows ([] : List Char) = []
    ∧ parse_model_output ([] : List Char) = []
    ∧ parse_model_output ("This is prose with no brackets at all.".toList) = []
    ∧ parse_model_output ("[\x7b".toList) = [] := by
  refine ⟨?_, by decide, by decide, by decide, by decide⟩
  intro text h
  simp [safe_parse_rows, h]

/-- Witness for C2: a concrete failed parse yields the empty row list. -/
theorem parse_pipeline_total_witness :
    safe_parse_rows ("prose".toList) = [] :=
  parse_pipeline_total.1 ("prose".toList) (by decide)

/-- C3: when the direct parse of the whole output yields no rows, the
pipeline scans the fenced blocks, then the bracketed fragments, then the
brace-delimited fragments — each class in order of occurrence — and returns
the rows of the first candidate whose parse is non-empty; in particular the
spec's fenced-JSON example yields the single row `{a: 1}`. -/
theorem parse_priority_spec :
    (∀ text : List Char, safe_parse_rows text = [] →
        parse_model_output text =
          firstNonEmptyRows
            (findFenced text ++ findDelim '[' ']' text ++ findDelim '{' '}' text))
    ∧ parse_model_output
        ("Here are the results:\n```json\n[\x7b\"a\":1\x7d]\n```".toList) =
      [[("a", JVal.num 1)]] := by
  constructor
  · intro text h
    simp [parse_model_output, h, extract_json_candidates]
  · decide

/-- Witness for C3: the direct parse of the example is empty, so the
priority scan applies to it. -/
theorem parse_priority_spec_witness :
    parse_model_output
        ("Here are the results:\n```json\n[\x7b\"a\":1\x7d]\n```".toList) =
      firstNonEmptyRows
        (findFenced ("Here are the results:\n```json\n[\x7b\"a\":1\x7d]\n```".toList)
          ++ findDelim '[' ']' ("Here are the results:\n```json\n[\x7b\"a\":1\x7d]\n```".toList)
          ++ findDelim '{' '}' ("Here are the results:\n```json\n[\x7b\"a\":1\x7d]\n```".toList)) :=
  parse_priority_spec.1
    ("Here are the results:\n```json\n[\x7b\"a\":1\x7d]\n```".toList) (by decide)

/-- C10: a model response that parses to a JSON object with no `rows` key
holding a list yields zero rows from `safe_parse_rows`; concretely, the bare
object `{a: 1}` yields `[]` both as the whole response and when recovered as
a brace-delimited candidate inside prose — it is never treated as one row. -/
theorem bare_object_no_rows :
    (∀ (text : List Char) (kvs : List (String × JVal)),
        json_loads text = some (JVal.obj kvs) →
        (∀ xs, alookup "rows" kvs ≠ some (JVal.arr xs)) →
        safe_parse_rows text = [])
    ∧ safe_parse_rows ("\x7b\"a\":1\x7d".toList) = []
    ∧ parse_model_output ("\x7b\"a\":1\x7d".toList) = []
    ∧ parse_model_output ("Result: \x7b\"a\":1\x7d done".toList) = [] := by
  refine ⟨?_, by decide, by decide, by decide⟩
  intro text kvs hparse hrows
  rcases halk : alookup "rows" kvs with _ | v
  · simp [safe_parse_rows, hparse, halk]
  · cases v with
    | arr xs => exact absurd halk (hrows xs)
    | null => simp [safe_parse_rows, hparse, halk]
    | bool b => simp [safe_parse_rows, hparse, halk]
    | num n => simp [safe_parse_rows, hparse, halk]
    | str s => simp [safe_parse_rows, hparse, halk]
    | obj kvs2 => simp [safe_parse_rows, hparse, halk]

/-- Witness for C10: the general statement applied to the bare object. -/
theorem bare_object_no_rows_witness :
    safe_parse_rows ("\x7b\"a\":1\x7d".toList) = [] :=
  bare_object_no_rows.1 ("\x7b\"a\":1\x7d".toList) [("a", JVal.num 1)]
    (by decide) (fun xs h => by simp [alookup] at h)

/-! ## ExtractionOrchestrator: the `/extract` endpoint (main.py lines 206-246)

The external collaborators are abstract function parameters:
`fetchF` models `fetch_url` (which catches every exception, so it always
returns an outcome — `html = none` is a failed fetch, and an empty string is
falsy in the `if not html` guard); `cleanF` models `clean_html_to_text`
(BeautifulSoup); `modelF` models the outbound OpenAI chat call for this
request's query and model options, mapping a (truncated) chunk to the
response text, with `none` for a provider exception. -/

structure ChunkingOptions where
  window_size : Int
  overlap : Int

structure LLMOptions where
  provider : List Char
  model : List Char
  json_mode : Bool

structure ExtractRequest where
  urls : List (List Char)
  query : List Char
  target_rows : Nat
  chunking : ChunkingOptions
  llm : LLMOptions

structure PageResult where
  url : List Char
  title : Option (List Char)
  rows : List Row

structure ExtractResponse where
  success : Bool
  results : List PageResult
  error : Option (List Char)

/-- Result of `fetch_url`: `html = none` models a fetch error (the function
catches every exception and returns `{"html": None, ...}`). -/
structure FetchOutcome where
  html : Option (List Char)
  title : Option (List Char)

/-- Python `str.lower()` (ASCII). -/
def lowerStr (s : List Char) : List Char := s.map Char.toLower

/-- `call_openai_extract` (main.py lines 137-191): returns `[]` when no API
key is configured or the provider raises, otherwise parses the model's
response text through the row-recovery pipeline.  The chunk is truncated to
8000 characters when building the prompt. -/
def call_openai_extract (apiKey : List Char)
    (modelF : List Char → Option (List Char)) (chunk : List Char) : List Row :=
  if apiKey = [] then []
  else
    match modelF (chunk.take 8000) with
    | none => []
    | some text => parse_model_output text

/-- The `for ch in chunks` loop of the endpoint (main.py lines 230-242):
extract rows from each chunk in order, merge non-empty results into the
deduplicated accumulator, and break as soon as the accumulator reaches the
per-URL target.  Besides the accumulator, the number of model calls made is
returned (each iteration makes exactly one). -/
def extractChunksLoop (f : List Char → List Row) (target : Nat) :
    List (List Char) → List Row → Nat → (List Row × Nat)
  | [], acc, calls => (acc, calls)
  | ch :: rest, acc, calls =>
    let rows := f ch
    let acc2 := if rows.isEmpty then acc else dedupe_rows (acc ++ rows)
    if target ≤ acc2.length then (acc2, calls + 1)
    else extractChunksLoop f target rest acc2 (calls + 1)

/-- The body of the per-URL iteration of the endpoint (main.py lines
219-244): fetch, bail out with an empty row list when the fetch failed or
returned falsy HTML, otherwise clean, chunk (window and overlap scaled by
10 to a rough character window), and run the chunk loop. -/
def processUrl (apiKey : List Char) (fetchF : List Char → FetchOutcome)
    (cleanF : List Char → List Char) (modelF : List Char → Option (List Char))
    (chunking : ChunkingOptions) (perUrlTarget : Nat) (url : List Char) :
    PageResult :=
  let fetched := fetchF url
  match fetched.html with
  | none => ⟨url, fetched.title, []⟩
  | some html =>
    if html.isEmpty then ⟨url, fetched.title, []⟩
    else
      let text := cleanF html
      let chunks := chunk_text text (chunking.window_size * 10) (chunking.overlap * 10)
      ⟨url, fetched.title,
        (extractChunksLoop (call_openai_extract apiKey modelF) perUrlTarget
          chunks [] 0).1⟩

/-- The `/extract` endpoint (main.py lines 206-246): three request-level
guards, then the per-URL target allocation and one `PageResult` per URL in
request order. -/
def extract (apiKey : List Char) (fetchF : List Char → FetchOutcome)
    (cleanF : List Char → List Char) (modelF : List Char → Option (List Char))
    (req : ExtractRequest) : ExtractResponse :=
  if req.urls = [] then
    ⟨false, [], some ("No URLs provided".toList)⟩
  else if lowerStr req.llm.provider ≠ "openai".toList then
    ⟨false, [], some ("Only OpenAI provider implemented in this server".toList)⟩
  else if apiKey = [] then
    ⟨false, [], some ("OPENAI_API_KEY not set on server".toList)⟩
  else
    ⟨true,
      req.urls.map
        (processUrl apiKey fetchF cleanF modelF req.chunking
          (per_url_target req.target_rows req.urls.length)),
      none⟩

/-- C5: in the per-URL chunk loop, the deduplicated accumulator is compared
to the target after each chunk; as soon as it reaches the target the loop
returns with exactly one more call made — the result does not depend on the
remaining chunks, which are never sent to the model.  In particular, when
the first chunk already yields at least the target many deduplicated rows,
exactly one extraction call is made. -/
theorem early_stop_spec (f : List Char → List Row) (target : Nat)
    (ch : List Char) (rest rest' : List (List Char)) (acc : List Row)
    (calls : Nat) :
    (target ≤ (if (f ch).isEmpty then acc else dedupe_rows (acc ++ f ch)).length →
      extractChunksLoop f target (ch :: rest) acc calls =
        ((if (f ch).isEmpty then acc else dedupe_rows (acc ++ f ch)), calls + 1)
      ∧ extractChunksLoop f target (ch :: rest) acc calls =
          extractChunksLoop f target (ch :: rest') acc calls)
    ∧ (1 ≤ target → target ≤ (dedupe_rows (f ch)).length →
        extractChunksLoop f target (ch :: rest) [] 0 = (dedupe_rows (f ch), 1)) := by
  constructor
  · intro h
    constructor <;> simp only [extractChunksLoop, if_pos h]
  · intro htarget h
    have hne : ¬ (f ch).isEmpty := by
      intro hemp
      rw [List.isEmpty_iff] at hemp
      rw [hemp] at h
      simp [dedupe_rows, dedupeGo] at h
      omega
    have hcase : (if (f ch).isEmpty then ([] : List Row)
        else dedupe_rows ([] ++ f ch)) = dedupe_rows (f ch) := by
      simp [hne]
    simp only [extractChunksLoop, hcase, if_pos h]

/-- Witness for C5: a first chunk yielding two distinct rows meets the
target 2 in one call, whatever the remaining chunks are. -/
theorem early_stop_spec_witness :
    extractChunksLoop
        (fun _ => [[("a", JVal.num 1)], [("b", JVal.num 2)]]) 2
        (("x".toList) :: [("y".toList), ("z".toList)]) [] 0 =
      (dedupe_rows [[("a", JVal.num 1)], [("b", JVal.num 2)]], 1) :=
  (early_stop_spec (fun _ => [[("a", JVal.num 1)], [("b", JVal.num 2)]]) 2
      ("x".toList) [("y".toList), ("z".toList)] [] [] 0).2
    (by decide) (by decide)

theorem processUrl_url (apiKey : List Char) (fetchF : List Char → FetchOutcome)
    (cleanF : List Char → List Char) (modelF : List Char → Option (List Char))
    (chunking : ChunkingOptions) (t : Nat) (url : List Char) :
    (processUrl apiKey fetchF cleanF modelF chunking t url).url = url := by
  rw [processUrl]
  rcases (fetchF url).html with _ | html
  · rfl
  · by_cases he : html.isEmpty <;> simp [he]

theorem processUrl_rows_of_fail (apiKey : List Char)
    (fetchF : List Char → FetchOutcome) (cleanF : List Char → List Char)
    (modelF : List Char → Option (List Char)) (chunking : ChunkingOptions)
    (t : Nat) (url : List Char)
    (hfail : (fetchF url).html = none ∨ (fetchF url).html = some []) :
    (processUrl apiKey fetchF cleanF modelF chunking t url).rows = [] := by
  rw [processUrl]
  rcases hfail with hh | hh
  · rw [hh]
  · rw [hh]
    simp

/-- C6: under a well-formed request (non-empty URLs, openai provider, API
key present) the response succeeds with exactly one `PageResult` per
requested URL in request order, and a URL whose fetch failed (no HTML, or
falsy empty HTML) gets an empty row sequence without affecting the other
URLs. -/
theorem fetch_failure_local (apiKey : List Char)
    (fetchF : List Char → FetchOutcome) (cleanF : List Char → List Char)
    (modelF : List Char → Option (List Char)) (req : ExtractRequest)
    (hurls : req.urls ≠ []) (hprov : lowerStr req.llm.provider = "openai".toList)
    (hkey : apiKey ≠ []) :
    (extract apiKey fetchF cleanF modelF req).success = true
    ∧ (extract apiKey fetchF cleanF modelF req).error = none
    ∧ (extract apiKey fetchF cleanF modelF req).results.map PageResult.url = req.urls
    ∧ (extract apiKey fetchF cleanF modelF req).results.length = req.urls.length
    ∧ (∀ (i : Nat) (u : List Char), req.urls[i]? = some u →
        ((fetchF u).html = none ∨ (fetchF u).html = some []) →
        ∃ r, (extract apiKey fetchF cleanF modelF req).results[i]? = some r
          ∧ r.url = u ∧ r.rows = []) := by
  have hext : extract apiKey fetchF cleanF modelF req =
      ⟨true,
        req.urls.map
          (processUrl apiKey fetchF cleanF modelF req.chunking
            (per_url_target req.target_rows req.urls.length)),
        none⟩ := by
    rw [extract, if_neg hurls, if_neg (by simp [hprov]), if_neg hkey]
  refine ⟨by rw [hext], by rw [hext], ?_, ?_, ?_⟩
  · rw [hext]
    simp only [List.map_map]
    have hcomp : (PageResult.url ∘
        processUrl apiKey fetchF cleanF modelF req.chunking
          (per_url_target req.target_rows req.urls.length)) = id := by
      funext u
      exact processUrl_url apiKey fetchF cleanF modelF req.chunking _ u
    rw [hcomp, List.map_id]
  · rw [hext]
    simp
  · intro i u hu hfail
    rw [hext]
    simp only [List.getElem?_map, hu, Option.map_some']
    exact ⟨_, rfl, processUrl_url apiKey fetchF cleanF modelF req.chunking _ u,
      processUrl_rows_of_fail apiKey fetchF cleanF modelF req.chunking _ u hfail⟩

/-- Witness for C6: two URLs, the first fetch fails, the second yields one
row from the model; the response succeeds, lists both URLs in order, and
the failed URL has no rows. -/
theorem fetch_failure_local_witness :
    (extract ("k".toList)
        (fun u => if u = "u1".toList then ⟨none, none⟩
          else ⟨some ("hello".toList), some ("T".toList)⟩)
        (fun h => h) (fun _ => some ("[\x7b\"a\":1\x7d]".toList))
        ⟨["u1".toList, "u2".toList], "q".toList, 10, ⟨600, 60⟩,
          ⟨"openai".toList, "m".toList, true⟩⟩).success = true
    ∧ ∃ r, (extract ("k".toList)
        (fun u => if u = "u1".toList then ⟨none, none⟩
          else ⟨some ("hello".toList), some ("T".toList)⟩)
        (fun h => h) (fun _ => some ("[\x7b\"a\":1\x7d]".toList))
        ⟨["u1".toList, "u2".toList], "q".toList, 10, ⟨600, 60⟩,
          ⟨"openai".toList, "m".toList, true⟩⟩).results[0]? = some r
      ∧ r.url = "u1".toList ∧ r.rows = [] :=
  ⟨(fetch_failure_local ("k".toList)
      (fun u => if u = "u1".toList then ⟨none, none⟩
        else ⟨some ("hello".toList), some ("T".toList)⟩)
      (fun h => h) (fun _ => some ("[\x7b\"a\":1\x7d]".toList))
      ⟨["u1".toList, "u2".toList], "q".toList, 10, ⟨600, 60⟩,
        ⟨"openai".toList, "m".toList, true⟩⟩
      (by decide) (by decide) (by decide)).1,
   (fetch_failure_local ("k".toList)
      (fun u => if u = "u1".toList then ⟨none, none⟩
        else ⟨some ("hello".toList), some ("T".toList)⟩)
      (fun h => h) (fun _ => some ("[\x7b\"a\":1\x7d]".toList))
      ⟨["u1".toList, "u2".toList], "q".toList, 10, ⟨600, 60⟩,
        ⟨"openai".toList, "m".toList, true⟩⟩
      (by decide) (by decide) (by decide)).2.2.2.2 0 ("u1".toList)
      (by decide) (Or.inl (by decide))⟩

/-- C7: the endpoint fails exactly when the URL list is empty, the provider
is not `openai` (case-insensitively), or the API key is absent; a failing
response carries no results and a non-empty error message, is produced
without consulting the fetch/clean/model collaborators, and a succeeding
response enumerates one `PageResult` per requested URL. -/
theorem request_guards_spec (apiKey : List Char)
    (fetchF fetchF' : List Char → FetchOutcome)
    (cleanF cleanF' : List Char → List Char)
    (modelF modelF' : List Char → Option (List Char)) (req : ExtractRequest) :
    ((extract apiKey fetchF cleanF modelF req).success = false ↔
      (req.urls = [] ∨ lowerStr req.llm.provider ≠ "openai".toList ∨ apiKey = []))
    ∧ ((extract apiKey fetchF cleanF modelF req).success = false →
        (extract apiKey fetchF cleanF modelF req).results = []
        ∧ ∃ e, (extract apiKey fetchF cleanF modelF req).error = some e ∧ e ≠ [])
    ∧ ((req.urls = [] ∨ lowerStr req.llm.provider ≠ "openai".toList ∨ apiKey = []) →
        extract apiKey fetchF' cleanF' modelF' req =
          extract apiKey fetchF cleanF modelF req)
    ∧ ((extract apiKey fetchF cleanF modelF req).success = true →
        (extract apiKey fetchF cleanF modelF req).results.length = req.urls.length) := by
  by_cases h1 : req.urls = []
  · have hext : ∀ (fF : List Char → FetchOutcome) (cF : List Char → List Char)
        (mF : List Char → Option (List Char)),
        extract apiKey fF cF mF req =
          ⟨false, [], some ("No URLs provided".toList)⟩ := by
      intro fF cF mF
      rw [extract, if_pos h1]
    refine ⟨⟨fun _ => Or.inl h1, fun _ => by rw [hext]⟩, ?_, ?_, ?_⟩
    · intro _
      exact ⟨by rw [hext], "No URLs provided".toList, by rw [hext], by decide⟩
    · intro _
      rw [hext, hext]
    · intro hs
      rw [hext] at hs
      cases hs
  · by_cases h2 : lowerStr req.llm.provider = "openai".toList
    · by_cases h3 : apiKey = []
      · have hext : ∀ (fF : List Char → FetchOutcome) (cF : List Char → List Char)
            (mF : List Char → Option (List Char)),
            extract apiKey fF cF mF req =
              ⟨false, [], some ("OPENAI_API_KEY not set on server".toList)⟩ := by
          intro fF cF mF
          rw [extract, if_neg h1, if_neg (not_not_intro h2), if_pos h3]
        refine ⟨⟨fun _ => Or.inr (Or.inr h3), fun _ => by rw [hext]⟩, ?_, ?_, ?_⟩
        · intro _
          exact ⟨by rw [hext], "OPENAI_API_KEY not set on server".toList,
            by rw [hext], by decide⟩
        · intro _
          rw [hext, hext]
        · intro hs
          rw [hext] at hs
          cases hs
      · have hext : ∀ (fF : List Char → FetchOutcome) (cF : List Char → List Char)
            (mF : List Char → Option (List Char)),
            extract apiKey fF cF mF req =
              ⟨true,
                req.urls.map
                  (processUrl apiKey fF cF mF req.chunking
                    (per_url_target req.target_rows req.urls.length)),
                none⟩ := by
          intro fF cF mF
          rw [extract, if_neg h1, if_neg (not_not_intro h2), if_neg h3]
        refine ⟨?_, ?_, ?_, ?_⟩
        · constructor
          · intro hs
            rw [hext] at hs
            cases hs
          · intro hor
            rcases hor with h | h | h
            · exact absurd h h1
            · exact absurd h2 h
            · exact absurd h h3
        · intro hs
          rw [hext] at hs
          cases hs
        · intro hor
          rcases hor with h | h | h
          · exact absurd h h1
          · exact absurd h2 h
          · exact absurd h h3
        · intro _
          rw [hext]
          simp
    · have hext : ∀ (fF : List Char → FetchOutcome) (cF : List Char → List Char)
          (mF : List Char → Option (List Char)),
          extract apiKey fF cF mF req =
            ⟨false, [],
              some ("Only OpenAI provider implemented in this server".toList)⟩ := by
        intro fF cF mF
        rw [extract, if_neg h1, if_pos h2]
      refine ⟨⟨fun _ => Or.inr (Or.inl h2), fun _ => by rw [hext]⟩, ?_, ?_, ?_⟩
      · intro _
        exact ⟨by rw [hext],
          "Only OpenAI provider implemented in this server".toList,
          by rw [hext], by decide⟩
      · intro _
        rw [hext, hext]
      · intro hs
        rw [hext] at hs
        cases hs

/-- Witness for C7: with no API key configured the response fails with no
results, before any fetch (instantiated with two distinct collaborator
triples). -/
theorem request_guards_spec_witness :
    (extract [] (fun _ => ⟨none, none⟩) (fun h => h) (fun _ => none)
        ⟨["u1".toList], "q".toList, 10, ⟨600, 60⟩,
          ⟨"openai".toList, "m".toList, true⟩⟩).success = false
    ∧ (extract [] (fun _ => ⟨none, none⟩) (fun h => h) (fun _ => none)
        ⟨["u1".toList], "q".toList, 10, ⟨600, 60⟩,
          ⟨"openai".toList, "m".toList, true⟩⟩).results = [] :=
  ⟨(request_guards_spec [] (fun _ => ⟨none, none⟩) (fun _ => ⟨none, none⟩)
      (fun h => h) (fun h => h) (fun _ => none) (fun _ => none)
      ⟨["u1".toList], "q".toList, 10, ⟨600, 60⟩,
        ⟨"openai".toList, "m".toList, true⟩⟩).1.mpr (Or.inr (Or.inr rfl)),
   ((request_guards_spec [] (fun _ => ⟨none, none⟩) (fun _ => ⟨none, none⟩)
      (fun h => h) (fun h => h) (fun _ => none) (fun _ => none)
      ⟨["u1".toList], "q".toList, 10, ⟨600, 60⟩,
        ⟨"openai".toList, "m".toList, true⟩⟩).2.1
     ((request_guards_spec [] (fun _ => ⟨none, none⟩) (fun _ => ⟨none, none⟩)
        (fun h => h) (fun h => h) (fun _ => none) (fun _ => none)
        ⟨["u1".toList], "q".toList, 10, ⟨600, 60⟩,
          ⟨"openai".toList, "m".toList, true⟩⟩).1.mpr (Or.inr (Or.inr rfl)))).1⟩

end Crawl4AI
